import Mathlib

/-!
Verification of the bstt timetable core (src/main.rs).

Strings are modelled as `List Char` (`Str`); Rust `String` methods
(`replace`, `split_whitespace`, `ends_with`, lexicographic `cmp`) are
translated below.  Timestamps are modelled through an oracle
`parse : Str → Option Int` standing for the external collaborator
`chrono::DateTime::parse_from_rfc3339` composed with conversion to local
time; the `Int` is the local instant in minutes, so `Duration::minutes(10)`
is `10` and the local calendar date (`date_naive`) is floor-division by
`1440`.  A Rust `.unwrap()` panic is modelled by an `Option` result of the
surrounding display function (`none` = the process aborts).
-/

namespace Bstt

/-- Rust `String`, viewed as its character sequence. -/
abbrev Str := List Char

/-- Coerce a Lean string literal to the `List Char` model. -/
def str (s : String) : Str := s.data

/-- Rust lexicographic comparison `a.cmp(b) != Greater` on strings,
i.e. `a <= b` in the derived order used by `sort_by`. -/
def strLe : Str → Str → Bool
  | [], _ => true
  | _ :: _, [] => false
  | a :: as, b :: bs => if a < b then true else if b < a then false else strLe as bs

/-- Rust `str::contains` for a literal pattern (substring occurrence). -/
def containsSub : Str → Str → Bool
  | s, p =>
    p.isPrefixOf s ||
      match s with
      | [] => false
      | _ :: rest => containsSub rest p

/-- Worker for `replaceAll`, structurally recursive on a fuel argument so
that it evaluates inside the kernel; each step consumes at least one
character, so fuel `s.length` is always enough. -/
def replaceAllAux (p r : Str) : Nat → Str → Str
  | _, [] => []
  | 0, s => s
  | fuel + 1, c :: rest =>
    if p ≠ [] ∧ p.isPrefixOf (c :: rest) then
      r ++ replaceAllAux p r fuel (rest.drop (p.length - 1))
    else
      c :: replaceAllAux p r fuel rest

/-- Rust `str::replace(p, r)`: replace every non-overlapping occurrence of
`p` in `s` by `r`, scanning left to right.  (All patterns used by the
program are non-empty; an empty pattern is treated as matching nowhere.) -/
def replaceAll (p r : Str) (s : Str) : Str := replaceAllAux p r s.length s

/-- `apply_transformations` from src/main.rs lines 186-191: fold the ordered
rule table over the string with `String::replace`. -/
def apply_transformations (s : Str) (rules : List (Str × Str)) : Str :=
  rules.foldl (fun acc pr => replaceAll pr.1 pr.2 acc) s

/-- The `compound_rules` table of `compress_title` (src/main.rs 194-200). -/
def compound_rules : List (Str × Str) :=
  [(str "Software Engineering", str "SE"), (str "Data Structures", str "DS"),
   (str "Intro to AI", str "AI"),
   (str "Practical Physics-Computing Lecture", str "Labs-Comp Lec"),
   (str "Practical Physics-Computing Drop-in", str "Labs-Comp DI"),
   (str "Probability & Statistics for Physicists", str "Prob+Stats P"),
   (str "Introductory Mathematics for Physics", str "Intro M for P"),
   (str "Intro to Coding and Data Analysis", str "Coding+D.A."),
   (str "Core Physics I Problem Class", str "Core P PrbCls"),
   (str "Intro Mathematics Examples Class", str "Intro M ExCls"),
   (str "Practical Physics", str "Labs"), (str "Problem Class", str "PrbCls")]

/-- The `atomic_rules` table of `compress_title` (src/main.rs 201-205). -/
def atomic_rules : List (Str × Str) :=
  [(str "Introductory", str "Intro"), (str "Introduction", str "Intro"),
   (str "Mathematics", str "M"), (str "Physics", str "P"),
   (str "Probability", str "Prob"), (str "Statistics", str "Stats"),
   (str "Computing", str "Comp"), (str "Lecture", str "Lec"),
   (str "Tutorial", str "Tut"), (str "Workshop", str "W"),
   (str "Project", str "Proj"), (str "Assembly", str "Asmbly")]

/-- The `symbol_rules` table of `compress_title` (src/main.rs 206). -/
def symbol_rules : List (Str × Str) :=
  [(str " and ", str " + "), (str " & ", str " + "), (str " for ", str " "),
   (str " of ", str " "), (str " to ", str " ")]

/-- The `numerals` array of `compress_title` (src/main.rs 210). -/
def numerals : List Str :=
  [str " V", str " IV", str " III", str " II", str " I"]

/-- The roman-numeral loop of `compress_title` (src/main.rs 211-216):
strip the first suffix of the list that matches, then stop. -/
def strip_numerals : List Str → Str → Str
  | [], s => s
  | n :: rest, s =>
    if n.isSuffixOf s then s.take (s.length - n.length) else strip_numerals rest s

/-- Rust `word.to_lowercase().starts_with("grp")` (src/main.rs 217). -/
def isGrpWord (w : Str) : Bool := (str "grp").isPrefixOf (w.map Char.toLower)

/-- Accumulator-based model of Rust `str::split_whitespace`: maximal runs of
non-whitespace characters, empty runs dropped. -/
def splitWsAux : Str → Str → List Str
  | acc, [] => if acc = [] then [] else [acc.reverse]
  | acc, c :: rest =>
    if c.isWhitespace then
      if acc = [] then splitWsAux [] rest else acc.reverse :: splitWsAux [] rest
    else
      splitWsAux (c :: acc) rest

/-- Rust `str::split_whitespace` (collected to a list). -/
def splitWs (s : Str) : List Str := splitWsAux [] s

/-- Rust `Vec<&str>::join(" ")`. -/
def unwords : List Str → Str
  | [] => []
  | [w] => w
  | w :: ws => w ++ ' ' :: unwords ws

/-- The whitespace-split / grp-filter of `compress_title` (src/main.rs 217). -/
def title_words (t : Str) : List Str :=
  (splitWs t).filter (fun w => !isGrpWord w)

/-- `compress_title` from src/main.rs 193-219: compound rules, atomic rules,
symbol rules, one roman-numeral strip, then split on whitespace, drop
grp-tokens and rejoin with single spaces. -/
def compress_title (title : Str) : Str :=
  unwords (title_words (strip_numerals numerals
    (apply_transformations
      (apply_transformations (apply_transformations title compound_rules) atomic_rules)
      symbol_rules)))

/-- The rule table of `compress_location` (src/main.rs 222-228).  Note the
eleventh entry is `" Room"` with a leading space. -/
def location_rules : List (Str × Str) :=
  [(str "Physics Building", str "Phys"), (str "Priory Road Complex", str "PrioryRd"),
   (str "Biomedical Sciences Building", str "BioSci"),
   (str "31-37 St. Michael's Hill", str "StMichHill"),
   (str "Queen's Building", str "Queens"), (str "Chemistry Building", str "Chem"),
   (str "Fry Building", str "Fry"), (str "Lecture Theatre", str "LT"),
   (str "Building", str "Bldg"), (str "Complex", str "Cmplx"),
   (str " Room", str ""), (str "Rear:", str ""), (str ": ", str ":")]

/-- `compress_location` from src/main.rs 221-230. -/
def compress_location (location : Str) : Str :=
  apply_transformations location location_rules

/-- The `Event` record of src/main.rs 34-47. -/
structure Event where
  title : Str
  event_type : Str
  start : Str
  «end» : Str
  location : Str
  teacher_name : Option Str
deriving DecidableEq

/-- `date_naive` of a local instant in minutes: floor-division by 1440. -/
def dateOf (t : Int) : Int := Int.fdiv t 1440

/-- A decimal digit character. -/
def digitChar (n : Nat) : Char := Char.ofNat (48 + n)

/-- Two-digit zero-padded decimal (values below 100). -/
def pad2 (n : Nat) : Str :=
  if n < 10 then ['0', digitChar n] else [digitChar (n / 10), digitChar (n % 10)]

/-- chrono `format("%H:%M")` of a local instant in minutes. -/
def formatHM (t : Int) : Str :=
  let m : Nat := (Int.emod t 1440).toNat
  pad2 (m / 60) ++ ':' :: pad2 (m % 60)

/-- The day filter of `display_timetable` (src/main.rs 134-138) and
`display_mini_timetable` (238-242): keep an event iff its `start` parses and
its local date is the target date; a parse failure yields `false`. -/
def dayPred (parse : Str → Option Int) (d : Int) (e : Event) : Bool :=
  match parse e.start with
  | some t => dateOf t == d
  | none => false

/-- Day Selector: the filter above followed by the stable sort on the raw
`start` strings (`sort_by(|a, b| a.start.cmp(&b.start))`, src/main.rs 140
and 243). -/
def selectDay (parse : Str → Option Int) (events : List Event) (d : Int) : List Event :=
  List.insertionSort (fun a b => strLe a.start b.start = true)
    (events.filter (dayPred parse d))

/-- The closure of the `current_event` scan (src/main.rs 246-250): both
timestamps are `unwrap`ped (a parse failure is a panic, `none`), then the
half-open test `start <= now && now < end`. -/
def currentPred (parse : Str → Option Int) (now : Int) (e : Event) : Option Bool :=
  match parse e.start, parse e.«end» with
  | some s, some en => some (decide (s ≤ now ∧ now < en))
  | _, _ => none

/-- The closure of the `next_event` scan (src/main.rs 253-256): `start` is
`unwrap`ped, then the strict test `start > now`. -/
def nextPred (parse : Str → Option Int) (now : Int) (e : Event) : Option Bool :=
  match parse e.start with
  | some s => some (decide (now < s))
  | none => none

/-- Rust `iter().find(pred)` where the predicate may panic: `none` is a
panic, `some none` no match, `some (some e)` the first match. -/
def findP (p : Event → Option Bool) : List Event → Option (Option Event)
  | [] => some none
  | e :: rest =>
    match p e with
    | none => none
    | some true => some (some e)
    | some false => findP p rest

/-- Total spec-side form of the current test: first the start parse, then
the end parse, `false` on failure. -/
def isCurrentB (parse : Str → Option Int) (now : Int) (e : Event) : Bool :=
  match parse e.start, parse e.«end» with
  | some s, some en => decide (s ≤ now ∧ now < en)
  | _, _ => false

/-- Total spec-side form of the next test. -/
def isNextB (parse : Str → Option Int) (now : Int) (e : Event) : Bool :=
  match parse e.start with
  | some s => decide (now < s)
  | none => false

/-- `display_mini_timetable` (src/main.rs 233-294), producing the status
string; `none` models a panic of one of the `unwrap` calls. -/
def display_mini_timetable (parse : Str → Option Int) (events : List Event)
    (now : Int) : Option Str :=
  let todays := selectDay parse events (dateOf now)
  match findP (currentPred parse now) todays with
  | none => none
  | some curO =>
    match findP (nextPred parse now) todays with
    | none => none
    | some nextO =>
      match curO with
      | some current =>
        match parse current.«end» with
        | none => none
        | some endT =>
          if endT - 10 ≤ now then
            match nextO with
            | some next =>
              match parse next.start with
              | none => none
              | some ns =>
                some (str "BRD " ++ formatHM endT ++ str "→" ++ formatHM ns ++
                  str " | " ++ compress_title next.title ++ str " @ " ++
                  compress_location next.location)
            | none =>
              some (str "CUR " ++ compress_title current.title ++ str " | " ++
                compress_location current.location ++ str " END " ++ formatHM endT)
          else
            some (str "CUR " ++ compress_title current.title ++ str " | " ++
              compress_location current.location ++ str " END " ++ formatHM endT)
      | none =>
        match nextO with
        | some next =>
          match parse next.start with
          | none => none
          | some ns =>
            some (str "NXT " ++ compress_title next.title ++ str " | " ++
              compress_location next.location ++ str " @ " ++ formatHM ns)
        | none => some (str "TTB: BLK")

/-- The lecturer cell of `display_timetable` (src/main.rs 168-174): first
comma-separated part of `teacher_name`, trimmed, empty when absent. -/
def main_lecturer (e : Event) : Str :=
  (((e.teacher_name.getD []).takeWhile (fun c => c ≠ ',')).dropWhile Char.isWhitespace).reverse
    |>.dropWhile Char.isWhitespace |>.reverse

/-- One rendered row of the full timetable table. -/
structure Row where
  time : Str
  rtype : Str
  rtitle : Str
  rlocation : Str
  lecturer : Str
deriving DecidableEq

/-- One row of the full-table loop (src/main.rs 162-181): both timestamps
are `unwrap`ped, so a parse failure is a panic (`none`). -/
def event_row (parse : Str → Option Int) (e : Event) : Option Row :=
  match parse e.start, parse e.«end» with
  | some s, some en =>
    some ⟨formatHM s ++ str " - " ++ formatHM en, e.event_type, e.title,
      e.location, main_lecturer e⟩
  | _, _ => none

/-- The row set built by `display_timetable` for a target date; `none`
models a panic inside the row loop. -/
def display_timetable_rows (parse : Str → Option Int) (events : List Event)
    (d : Int) : Option (List Row) :=
  (selectDay parse events d).mapM (event_row parse)

/-! ### Whitespace-normalization predicates (for the title compactor) -/

/-- The first character, if any, is not whitespace. -/
def noLeadWs : Str → Bool
  | [] => true
  | c :: _ => !c.isWhitespace

/-- The last character, if any, is not whitespace. -/
def noTrailWs : Str → Bool
  | [] => true
  | [c] => !c.isWhitespace
  | _ :: c :: rest => noTrailWs (c :: rest)

/-- No two consecutive characters are both whitespace. -/
def noConsecWs : Str → Bool
  | a :: b :: rest => (!(a.isWhitespace && b.isWhitespace)) && noConsecWs (b :: rest)
  | _ => true

/-! ### Concrete fixtures used by witnesses and counterexamples -/

/-- Concrete parse oracle: four timestamps, all on local day 0
(minutes 540 = 09:00, 600 = 10:00, 615 = 10:15, 660 = 11:00). -/
def parseW : Str → Option Int := fun s =>
  if s = str "a" then some 540
  else if s = str "b" then some 600
  else if s = str "c" then some 615
  else if s = str "d" then some 660
  else none

/-- Event [09:00, 10:00) in room Y. -/
def e1W : Event := ⟨str "T1", str "L", str "a", str "b", str "Y", none⟩

/-- Event [10:15, 11:00) in room Z. -/
def e2W : Event := ⟨str "T2", str "L", str "c", str "d", str "Z", none⟩

/-- A deliberately unsorted event list. -/
def evsW : List Event := [e2W, e1W]

/-- Parse oracle under which only the string "a" parses. -/
def parseBad : Str → Option Int := fun s => if s = str "a" then some 540 else none

/-- Event whose start parses (to 09:00 on day 0) but whose end does not. -/
def eBad : Event := ⟨str "T", str "L", str "a", str "oops", str "Y", none⟩

/-! ### Helper lemmas about the string pipeline -/

theorem replaceAllAux_not_contains {p : Str} (r : Str) :
    ∀ (fuel : Nat) (s : Str), containsSub s p = false →
      replaceAllAux p r fuel s = s := by
  intro fuel
  induction fuel with
  | zero => intro s _; cases s <;> rfl
  | succ fuel ih =>
    intro s h
    cases s with
    | nil => rfl
    | cons c rest =>
      simp only [containsSub, Bool.or_eq_false_iff] at h
      rw [replaceAllAux, if_neg]
      · rw [ih rest h.2]
      · rintro ⟨-, hpre⟩
        rw [h.1] at hpre
        exact Bool.false_ne_true hpre

theorem replaceAll_not_contains {s p : Str} (r : Str) (h : containsSub s p = false) :
    replaceAll p r s = s :=
  replaceAllAux_not_contains r s.length s h

theorem apply_transformations_append (s : Str) (l₁ l₂ : List (Str × Str)) :
    apply_transformations s (l₁ ++ l₂) =
      apply_transformations (apply_transformations s l₁) l₂ :=
  List.foldl_append _ _ _ _

theorem apply_transformations_id {s : Str} {rules : List (Str × Str)}
    (h : ∀ pr ∈ rules, containsSub s pr.1 = false) :
    apply_transformations s rules = s := by
  induction rules with
  | nil => rfl
  | cons pr rest ih =>
    show apply_transformations (replaceAll pr.1 pr.2 s) rest = s
    rw [replaceAll_not_contains pr.2 (h pr (by simp))]
    exact ih (fun x hx => h x (by simp [hx]))

theorem strip_numerals_id {ns : List Str} {s : Str}
    (h : ∀ n ∈ ns, n.isSuffixOf s = false) : strip_numerals ns s = s := by
  induction ns with
  | nil => rfl
  | cons n rest ih =>
    rw [strip_numerals, if_neg (by simp [h n (by simp)])]
    exact ih (fun x hx => h x (by simp [hx]))

theorem strip_numerals_cases (ns : List Str) (s : Str) :
    strip_numerals ns s = s ∨ ∃ n ∈ ns, s = strip_numerals ns s ++ n := by
  induction ns with
  | nil => exact Or.inl rfl
  | cons n rest ih =>
    by_cases h : n.isSuffixOf s = true
    · right
      refine ⟨n, by simp, ?_⟩
      rw [strip_numerals, if_pos h]
      obtain ⟨t, ht⟩ := List.isSuffixOf_iff_suffix.mp h
      have htake : (t ++ n).take ((t ++ n).length - n.length) = t := by
        rw [List.length_append, Nat.add_sub_cancel, List.take_left]
      rw [← ht, htake]
    · rw [strip_numerals, if_neg h]
      rcases ih with h1 | ⟨m, hm, h2⟩
      · exact Or.inl h1
      · exact Or.inr ⟨m, by simp [hm], h2⟩

/-! ### Whitespace splitting and joining -/

theorem splitWsAux_good (s : Str) :
    ∀ acc : Str, (∀ c ∈ acc, c.isWhitespace = false) →
      ∀ w ∈ splitWsAux acc s, w ≠ [] ∧ ∀ c ∈ w, c.isWhitespace = false := by
  induction s with
  | nil =>
    intro acc hacc w hw
    simp only [splitWsAux] at hw
    by_cases h : acc = []
    · simp [h] at hw
    · rw [if_neg h] at hw
      simp only [List.mem_singleton] at hw
      subst hw
      exact ⟨by simpa using h, fun c hc => hacc c (List.mem_reverse.mp hc)⟩
  | cons c rest ih =>
    intro acc hacc w hw
    simp only [splitWsAux] at hw
    by_cases hws : c.isWhitespace
    · rw [if_pos hws] at hw
      by_cases h : acc = []
      · rw [if_pos h] at hw
        exact ih [] (by simp) w hw
      · rw [if_neg h] at hw
        rcases List.mem_cons.mp hw with h1 | h1
        · subst h1
          exact ⟨by simpa using h, fun x hx => hacc x (List.mem_reverse.mp hx)⟩
        · exact ih [] (by simp) w h1
    · rw [if_neg hws] at hw
      refine ih (c :: acc) ?_ w hw
      intro x hx
      rcases List.mem_cons.mp hx with h1 | h1
      · subst h1; simpa using hws
      · exact hacc x h1

theorem splitWsAux_run {w : Str} (hw : ∀ c ∈ w, c.isWhitespace = false) :
    ∀ acc s, splitWsAux acc (w ++ s) = splitWsAux (w.reverse ++ acc) s := by
  induction w with
  | nil => intro acc s; simp
  | cons c w' ih =>
    intro acc s
    have hc : c.isWhitespace = false := hw c (by simp)
    simp only [List.cons_append, splitWsAux, hc, Bool.false_eq_true, if_false,
      List.append_eq]
    rw [ih (fun x hx => hw x (by simp [hx])) (c :: acc) s]
    simp

theorem splitWs_unwords (ws : List Str)
    (h : ∀ w ∈ ws, w ≠ [] ∧ ∀ c ∈ w, c.isWhitespace = false) :
    splitWs (unwords ws) = ws := by
  induction ws with
  | nil => rfl
  | cons w ws' ih =>
    obtain ⟨hne, hnw⟩ := h w (by simp)
    cases ws' with
    | nil =>
      show splitWsAux [] (unwords [w]) = [w]
      have : unwords [w] = w ++ [] := by simp [unwords]
      rw [this, splitWsAux_run hnw [] []]
      simp only [splitWsAux, List.append_nil]
      rw [if_neg (by simpa using hne)]
      simp
    | cons w' ws'' =>
      show splitWsAux [] (unwords (w :: w' :: ws'')) = w :: w' :: ws''
      have hu : unwords (w :: w' :: ws'') = w ++ ' ' :: unwords (w' :: ws'') := by
        simp [unwords]
      rw [hu, splitWsAux_run hnw [] (' ' :: unwords (w' :: ws''))]
      simp only [List.append_nil, splitWsAux]
      rw [if_pos (by decide), if_neg (by simpa using hne)]
      rw [List.reverse_reverse]
      have := ih (fun x hx => h x (by simp [hx]))
      exact congrArg (w :: ·) this

theorem title_words_good (t : Str) :
    ∀ w ∈ title_words t,
      (w ≠ [] ∧ ∀ c ∈ w, c.isWhitespace = false) ∧ isGrpWord w = false := by
  intro w hw
  rcases List.mem_filter.mp hw with ⟨hmem, hflt⟩
  exact ⟨splitWsAux_good t [] (by simp) w hmem, by simpa using hflt⟩

theorem title_words_unwords (ws : List Str)
    (h : ∀ w ∈ ws, (w ≠ [] ∧ ∀ c ∈ w, c.isWhitespace = false) ∧ isGrpWord w = false) :
    title_words (unwords ws) = ws := by
  unfold title_words
  rw [show splitWs (unwords ws) = ws from splitWs_unwords ws (fun w hw => (h w hw).1)]
  exact List.filter_eq_self.mpr (fun w hw => by simp [(h w hw).2])

/-! ### The lexicographic order used by the Day Selector -/

theorem strLe_total (a : Str) : ∀ b, strLe a b = true ∨ strLe b a = true := by
  induction a with
  | nil => intro b; exact Or.inl rfl
  | cons x xs ih =>
    intro b
    cases b with
    | nil => exact Or.inr rfl
    | cons y ys =>
      rcases lt_trichotomy x y with h | h | h
      · exact Or.inl (by simp [strLe, h])
      · subst h
        rcases ih ys with h1 | h1
        · exact Or.inl (by simp [strLe, h1])
        · exact Or.inr (by simp [strLe, h1])
      · exact Or.inr (by simp [strLe, h])

theorem strLe_trans {a b c : Str} (h1 : strLe a b = true) (h2 : strLe b c = true) :
    strLe a c = true := by
  induction a generalizing b c with
  | nil => rfl
  | cons x xs ih =>
    cases b with
    | nil => simp [strLe] at h1
    | cons y ys =>
      cases c with
      | nil => simp [strLe] at h2
      | cons z zs =>
        simp only [strLe] at h1 h2 ⊢
        by_cases hxy : x < y
        · by_cases hyz : y < z
          · simp [lt_trans hxy hyz]
          · by_cases hzy : z < y
            · simp [strLe, hyz, hzy] at h2
            · have : y = z := le_antisymm (not_lt.mp hzy) (not_lt.mp hyz)
              subst this
              simp [hxy]
        · by_cases hyx : y < x
          · simp [hxy, hyx] at h1
          · have hexy : x = y := le_antisymm (not_lt.mp hyx) (not_lt.mp hxy)
            subst hexy
            simp only [hxy, if_false, lt_irrefl] at h1 ⊢
            by_cases hyz : x < z
            · simp [hyz]
            · by_cases hzy : z < x
              · simp [hyz, hzy] at h2
              · have : x = z := le_antisymm (not_lt.mp hzy) (not_lt.mp hyz)
                subst this
                simp only [lt_irrefl, if_false] at h2 ⊢
                exact ih h1 h2

/-! ### Day Selector lemmas -/

theorem mem_selectDay {parse : Str → Option Int} {evs : List Event} {d : Int}
    {e : Event} :
    e ∈ selectDay parse evs d ↔ e ∈ evs ∧ dayPred parse d e = true := by
  unfold selectDay
  rw [List.mem_insertionSort, List.mem_filter]

theorem selectDay_start_some {parse : Str → Option Int} {evs : List Event} {d : Int}
    {e : Event} (h : e ∈ selectDay parse evs d) :
    ∃ t, parse e.start = some t ∧ dateOf t = d := by
  rcases mem_selectDay.mp h with ⟨-, hp⟩
  unfold dayPred at hp
  cases hps : parse e.start with
  | none => rw [hps] at hp; exact absurd hp (by simp)
  | some t => rw [hps] at hp; exact ⟨t, rfl, by simpa using hp⟩

/-! ### Find-loop lemmas -/

theorem findP_eq_findq (p : Event → Option Bool) (q : Event → Bool) :
    ∀ T : List Event, (∀ e ∈ T, p e = some (q e)) →
      findP p T = some (T.find? q) := by
  intro T
  induction T with
  | nil => intro _; rfl
  | cons e rest ih =>
    intro h
    have he : p e = some (q e) := h e (by simp)
    rw [findP, he, List.find?]
    cases hq : q e with
    | true => rfl
    | false => exact ih (fun x hx => h x (by simp [hx]))

theorem currentPred_eq_some (parse : Str → Option Int) (now : Int) {e : Event}
    {s en : Int} (hs : parse e.start = some s) (he : parse e.«end» = some en) :
    currentPred parse now e = some (isCurrentB parse now e) := by
  simp [currentPred, isCurrentB, hs, he]

theorem nextPred_eq_some (parse : Str → Option Int) (now : Int) {e : Event}
    {s : Int} (hs : parse e.start = some s) :
    nextPred parse now e = some (isNextB parse now e) := by
  simp [nextPred, isNextB, hs]

/-! ### Whitespace-normalization lemmas -/

theorem noLeadWs_of_all {w : Str} (h : ∀ c ∈ w, c.isWhitespace = false) :
    noLeadWs w = true := by
  cases w with
  | nil => rfl
  | cons a w' => simp [noLeadWs, h a (by simp)]

theorem noTrailWs_of_all {w : Str} (h : ∀ c ∈ w, c.isWhitespace = false) :
    noTrailWs w = true := by
  induction w with
  | nil => rfl
  | cons a w' ih =>
    cases w' with
    | nil => simp [noTrailWs, h a (by simp)]
    | cons b rest =>
      rw [noTrailWs]
      exact ih (fun c hc => h c (by simp [hc]))

theorem noConsecWs_of_all {w : Str} (h : ∀ c ∈ w, c.isWhitespace = false) :
    noConsecWs w = true := by
  induction w with
  | nil => rfl
  | cons a w' ih =>
    cases w' with
    | nil => rfl
    | cons b rest =>
      rw [noConsecWs, Bool.and_eq_true]
      refine ⟨by simp [h a (by simp)], ih (fun c hc => h c (by simp [hc]))⟩

theorem noConsecWs_cons_of_head {a : Char} (ha : a.isWhitespace = false)
    {rest : Str} (hr : noConsecWs rest = true) : noConsecWs (a :: rest) = true := by
  cases rest with
  | nil => rfl
  | cons b r =>
    rw [noConsecWs, Bool.and_eq_true]
    exact ⟨by simp [ha], hr⟩

theorem noConsecWs_space_cons {u : Str} (hu : noConsecWs u = true)
    (hl : noLeadWs u = true) : noConsecWs (' ' :: u) = true := by
  cases u with
  | nil => rfl
  | cons b u' =>
    rw [noConsecWs, Bool.and_eq_true]
    refine ⟨?_, hu⟩
    simp only [noLeadWs, Bool.not_eq_true'] at hl
    simp [hl]

theorem noConsecWs_glue {u : Str} (hu : noConsecWs u = true)
    (hl : noLeadWs u = true) :
    ∀ w : Str, (∀ c ∈ w, c.isWhitespace = false) →
      noConsecWs (w ++ ' ' :: u) = true := by
  intro w hw
  induction w with
  | nil => exact noConsecWs_space_cons hu hl
  | cons a w' ih =>
    rw [List.cons_append]
    exact noConsecWs_cons_of_head (hw a (by simp))
      (ih (fun c hc => hw c (by simp [hc])))

theorem noTrailWs_append {y : Str} (hy : y ≠ []) :
    ∀ x, noTrailWs (x ++ y) = noTrailWs y := by
  intro x
  induction x with
  | nil => rfl
  | cons a x' ih =>
    cases hxy : x' ++ y with
    | nil => exact absurd (List.append_eq_nil.mp hxy).2 hy
    | cons c rest =>
      rw [List.cons_append, hxy, noTrailWs, ← hxy, ih]

theorem unwords_ne_nil {ws : List Str} (hws : ws ≠ [])
    (h : ∀ w ∈ ws, w ≠ []) : unwords ws ≠ [] := by
  cases ws with
  | nil => exact absurd rfl hws
  | cons w ws' =>
    cases ws' with
    | nil => exact h w (by simp)
    | cons w' ws'' => simp [unwords]

theorem unwords_normalized (ws : List Str)
    (h : ∀ w ∈ ws, w ≠ [] ∧ ∀ c ∈ w, c.isWhitespace = false) :
    noLeadWs (unwords ws) = true ∧ noTrailWs (unwords ws) = true ∧
      noConsecWs (unwords ws) = true := by
  induction ws with
  | nil => exact ⟨rfl, rfl, rfl⟩
  | cons w ws' ih =>
    obtain ⟨hne, hnw⟩ := h w (by simp)
    cases ws' with
    | nil =>
      show noLeadWs w = true ∧ noTrailWs w = true ∧ noConsecWs w = true
      exact ⟨noLeadWs_of_all hnw, noTrailWs_of_all hnw, noConsecWs_of_all hnw⟩
    | cons w' ws'' =>
      obtain ⟨hl, ht, hc⟩ := ih (fun x hx => h x (by simp [hx]))
      have hu : unwords (w :: w' :: ws'') = w ++ ' ' :: unwords (w' :: ws'') := by
        simp [unwords]
      refine ⟨?_, ?_, ?_⟩
      · rw [hu]
        cases w with
        | nil => exact absurd rfl hne
        | cons a w₀ =>
          rw [List.cons_append]
          simp [noLeadWs, hnw a (by simp)]
      · rw [hu, noTrailWs_append (by simp) w]
        have hun : unwords (w' :: ws'') ≠ [] :=
          unwords_ne_nil (by simp) (fun x hx => (h x (by simp [hx])).1)
        cases hcase : unwords (w' :: ws'') with
        | nil => exact absurd hcase hun
        | cons c rest => rw [noTrailWs, ← hcase]; exact ht
      · rw [hu]
        exact noConsecWs_glue hc hl w hnw

/-! ### Claim theorems -/

/-- Claim C1: the Status Projector classifies today's events by the half-open
interval test `start <= now < end`: the current event is the chronologically
first today-event (in Day Selector order) satisfying it, an event ending
exactly at `now` is not current, an event starting exactly at `now` is
current (its interval being non-degenerate) and not next, and the next event
is the chronologically first today-event whose start is strictly greater
than `now`.  The hypothesis says every today-event's end timestamp parses,
which is what keeps the scan's `unwrap` calls from panicking. -/
theorem status_current_next_classification (parse : Str → Option Int)
    (events : List Event) (now : Int)
    (H : ∀ e ∈ selectDay parse events (dateOf now), (parse e.«end»).isSome = true) :
    findP (currentPred parse now) (selectDay parse events (dateOf now)) =
      some ((selectDay parse events (dateOf now)).find? (isCurrentB parse now)) ∧
    findP (nextPred parse now) (selectDay parse events (dateOf now)) =
      some ((selectDay parse events (dateOf now)).find? (isNextB parse now)) ∧
    ∀ (e : Event) (s en : Int), parse e.start = some s → parse e.«end» = some en →
      (isCurrentB parse now e = true ↔ s ≤ now ∧ now < en) ∧
      (en = now → isCurrentB parse now e = false) ∧
      (s = now → ((isCurrentB parse now e = true ↔ now < en) ∧
        isNextB parse now e = false)) := by
  refine ⟨?_, ?_, ?_⟩
  · apply findP_eq_findq
    intro e he
    obtain ⟨s, hs, -⟩ := selectDay_start_some he
    obtain ⟨en, hen⟩ := Option.isSome_iff_exists.mp (H e he)
    exact currentPred_eq_some parse now hs hen
  · apply findP_eq_findq
    intro e he
    obtain ⟨s, hs, -⟩ := selectDay_start_some he
    exact nextPred_eq_some parse now hs
  · intro e s en hs hen
    refine ⟨by simp [isCurrentB, hs, hen], ?_, ?_⟩
    · rintro rfl
      simp [isCurrentB, hs, hen]
    · rintro rfl
      exact ⟨by simp [isCurrentB, hs, hen], by simp [isNextB, hs]⟩

/-- Witness for C1 at a concrete input: two events on day 0, now = 09:52. -/
theorem status_current_next_classification_witness :
    findP (currentPred parseW 592) (selectDay parseW evsW (dateOf 592)) =
      some ((selectDay parseW evsW (dateOf 592)).find? (isCurrentB parseW 592)) :=
  (status_current_next_classification parseW evsW 592 (by decide)).1

/-- Claim C2: when a current event exists and `now >= end - 10min` (closed
lower bound), mini mode emits the border rendering (current end, arrow, next
start, next compacted title and location) precisely when a next today-event
exists, and falls back to the plain current rendering when none does. -/
theorem border_rendering_policy (parse : Str → Option Int) (events : List Event)
    (now : Int) (cur : Event) (en : Int)
    (hc : findP (currentPred parse now) (selectDay parse events (dateOf now)) =
      some (some cur))
    (he : parse cur.«end» = some en)
    (hb : en - 10 ≤ now) :
    (∀ (nxt : Event) (ns : Int),
      findP (nextPred parse now) (selectDay parse events (dateOf now)) =
        some (some nxt) →
      parse nxt.start = some ns →
      display_mini_timetable parse events now =
        some (str "BRD " ++ formatHM en ++ str "→" ++ formatHM ns ++ str " | " ++
          compress_title nxt.title ++ str " @ " ++ compress_location nxt.location)) ∧
    (findP (nextPred parse now) (selectDay parse events (dateOf now)) = some none →
      display_mini_timetable parse events now =
        some (str "CUR " ++ compress_title cur.title ++ str " | " ++
          compress_location cur.location ++ str " END " ++ formatHM en)) := by
  constructor
  · intro nxt ns hn hns
    simp only [display_mini_timetable, hc, hn, he, hns]
    rw [if_pos hb]
  · intro hn
    simp only [display_mini_timetable, hc, hn, he]
    rw [if_pos hb]

/-- Witness for C2: at 09:52 with the current event ending 10:00 and the
next starting 10:15, mini mode emits the border line. -/
theorem border_rendering_policy_witness :
    display_mini_timetable parseW evsW 592 = some (str "BRD 10:00→10:15 | T2 @ Z") := by
  have h := (border_rendering_policy parseW evsW 592 e1W 600 (by decide) (by decide)
    (by decide)).1 e2W 615 (by decide) (by decide)
  exact h.trans (by decide)

/-- Claim C3: an event is in the Day Selector result iff it is in the input,
its start parses and the local date of the parse equals the target date; the
result is sorted by the lexicographic order on the raw start strings. -/
theorem day_selector_filter_and_sorted (parse : Str → Option Int)
    (events : List Event) (d : Int) :
    (∀ e : Event, e ∈ selectDay parse events d ↔
      e ∈ events ∧ ∃ t : Int, parse e.start = some t ∧ dateOf t = d) ∧
    List.Sorted (fun a b => strLe a.start b.start = true) (selectDay parse events d) := by
  constructor
  · intro e
    rw [mem_selectDay]
    constructor
    · rintro ⟨hmem, hp⟩
      refine ⟨hmem, ?_⟩
      unfold dayPred at hp
      cases hps : parse e.start with
      | none => rw [hps] at hp; exact absurd hp (by simp)
      | some t => rw [hps] at hp; exact ⟨t, rfl, by simpa using hp⟩
    · rintro ⟨hmem, t, ht, hd⟩
      exact ⟨hmem, by simp [dayPred, ht, hd]⟩
  · unfold selectDay
    haveI : IsTrans Event (fun a b => strLe a.start b.start = true) :=
      ⟨fun _ _ _ h1 h2 => strLe_trans h1 h2⟩
    haveI : IsTotal Event (fun a b => strLe a.start b.start = true) :=
      ⟨fun a b => strLe_total a.start b.start⟩
    exact List.sorted_insertionSort _ _

/-- Claim C4 (code bug): an event whose start parses to today but whose end
does not parse is kept by the day filter, and then both the mini-mode
current-event scan and the full-table row loop `unwrap` the end timestamp
and panic (modelled as `none`), instead of excluding the event. -/
theorem unparseable_end_timestamp_panics :
    selectDay parseBad [eBad] (dateOf 560) = [eBad] ∧
    display_mini_timetable parseBad [eBad] 560 = none ∧
    display_timetable_rows parseBad [eBad] (dateOf 560) = none :=
  ⟨by decide, by decide, by decide⟩

/-- Counterexample for C5: the table entry is `" Room"` with a leading
space, so the occurrence of `"Room"` at the head of `"Room 5"` is not
removed by the location compactor. -/
theorem location_room_rule_counterexample :
    compress_location (str "Room 5") = str "Room 5" ∧
    containsSub (str "Room 5") (str "Room") = true := by
  decide

/-- Claim C5 (amended): the location compaction is a single ordered pass of
literal substring replacements whose eleventh entry is `" Room"` (with a
leading space) followed by `"Rear:"` and `": "`, applied after the
building-name rules; on inputs the other rules leave alone, the output is
the input with every occurrence of `" Room"` replaced away. -/
theorem location_space_room_removal (s : Str)
    (h1 : (location_rules.take 10).all (fun pr => !containsSub s pr.1) = true)
    (h2 : containsSub (replaceAll (str " Room") (str "") s) (str "Rear:") = false)
    (h3 : containsSub (replaceAll (str " Room") (str "") s) (str ": ") = false) :
    compress_location s = replaceAll (str " Room") (str "") s := by
  have hsplit : location_rules =
      location_rules.take 10 ++
        [(str " Room", str ""), (str "Rear:", str ""), (str ": ", str ":")] := rfl
  have h10 : apply_transformations s (location_rules.take 10) = s := by
    apply apply_transformations_id
    intro pr hpr
    simpa using List.all_eq_true.mp h1 pr hpr
  unfold compress_location
  rw [hsplit, apply_transformations_append, h10]
  show apply_transformations (replaceAll (str " Room") (str "") s)
      [(str "Rear:", str ""), (str ": ", str ":")] =
    replaceAll (str " Room") (str "") s
  apply apply_transformations_id
  intro pr hpr
  rcases List.mem_cons.mp hpr with h | h
  · subst h; exact h2
  · rcases List.mem_cons.mp h with h' | h'
    · subst h'; exact h3
    · simp at h'

/-- Witness for the amended C5 at a concrete location string. -/
theorem location_space_room_removal_witness :
    compress_location (str "Physics G12 Room") =
      replaceAll (str " Room") (str "") (str "Physics G12 Room") :=
  location_space_room_removal _ (by decide) (by decide) (by decide)

/-- Claim C6: the compound-phrase table fires before the atomic rules, so
"Practical Physics-Computing Lecture" is consumed whole and compacts to
"Labs-Comp Lec", not to a partial rewrite by the generic rules. -/
theorem compound_phrase_precedence :
    compress_title (str "Practical Physics-Computing Lecture") = str "Labs-Comp Lec" ∧
    compress_title (str "Practical Physics-Computing Lecture") ≠
      str "Labs-Comp-Computing Lec" := by
  decide

/-- Claim C7: the roman-numeral step removes at most one trailing suffix,
checking " V", " IV", " III", " II", " I" in the listed order, and a title
reaching that step as "Course III" becomes "Course" (also through the whole
title pipeline), not "Course I". -/
theorem roman_numeral_strip_once (s : Str) :
    (strip_numerals numerals s = s ∨
      ∃ n ∈ numerals, s = strip_numerals numerals s ++ n) ∧
    strip_numerals numerals (str "Course III") = str "Course" ∧
    compress_title (str "Course III") = str "Course" :=
  ⟨strip_numerals_cases numerals s, by decide, by decide⟩

/-- Claim C8: the compactors are pure functions (they are Lean functions of
the string alone), and applying them a second time leaves a compactor
output unchanged whenever no rule of the fixed tables further matches it:
no table pattern occurs in it and no roman-numeral suffix remains. -/
theorem compactor_idempotent_on_compacted (s l : Str)
    (h1 : (compound_rules ++ atomic_rules ++ symbol_rules).all
        (fun pr => !containsSub (compress_title s) pr.1) = true)
    (h2 : numerals.all (fun n => !n.isSuffixOf (compress_title s)) = true)
    (h3 : location_rules.all (fun pr => !containsSub (compress_location l) pr.1) = true) :
    compress_title (compress_title s) = compress_title s ∧
    compress_location (compress_location l) = compress_location l := by
  constructor
  · have hall : ∀ pr ∈ compound_rules ++ atomic_rules ++ symbol_rules,
        containsSub (compress_title s) pr.1 = false := by
      intro pr hpr
      simpa using List.all_eq_true.mp h1 pr hpr
    have e1 : apply_transformations (compress_title s) compound_rules =
        compress_title s :=
      apply_transformations_id (fun pr hpr => hall pr (by simp [hpr]))
    have e2 : apply_transformations (compress_title s) atomic_rules =
        compress_title s :=
      apply_transformations_id (fun pr hpr => hall pr (by simp [hpr]))
    have e3 : apply_transformations (compress_title s) symbol_rules =
        compress_title s :=
      apply_transformations_id (fun pr hpr => hall pr (by simp [hpr]))
    have e4 : strip_numerals numerals (compress_title s) = compress_title s := by
      apply strip_numerals_id
      intro n hn
      simpa using List.all_eq_true.mp h2 n hn
    show unwords (title_words (strip_numerals numerals
      (apply_transformations (apply_transformations
        (apply_transformations (compress_title s) compound_rules) atomic_rules)
        symbol_rules))) = compress_title s
    rw [e1, e2, e3, e4]
    have key : title_words (compress_title s) = title_words (strip_numerals numerals
        (apply_transformations (apply_transformations
          (apply_transformations s compound_rules) atomic_rules) symbol_rules)) :=
      title_words_unwords _ (title_words_good _)
    rw [key]
    rfl
  · exact apply_transformations_id (fun pr hpr => by
      simpa using List.all_eq_true.mp h3 pr hpr)

/-- Witness for C8 at concrete compacted strings. -/
theorem compactor_idempotent_on_compacted_witness :
    compress_title (compress_title (str "Hello World")) =
      compress_title (str "Hello World") ∧
    compress_location (compress_location (str "G.10")) =
      compress_location (str "G.10") :=
  compactor_idempotent_on_compacted (str "Hello World") (str "G.10")
    (by decide) (by decide) (by decide)

/-- Claim C9: when no today-event is current and none starts strictly after
`now` - in particular when today's filtered list is empty - mini mode emits
exactly the idle marker "TTB: BLK". -/
theorem idle_emits_blk (parse : Str → Option Int) (events : List Event) (now : Int) :
    ((findP (currentPred parse now) (selectDay parse events (dateOf now)) = some none ∧
      findP (nextPred parse now) (selectDay parse events (dateOf now)) = some none) →
      display_mini_timetable parse events now = some (str "TTB: BLK")) ∧
    (selectDay parse events (dateOf now) = [] →
      display_mini_timetable parse events now = some (str "TTB: BLK")) := by
  constructor
  · rintro ⟨hc, hn⟩
    simp only [display_mini_timetable, hc, hn]
  · intro hT
    simp only [display_mini_timetable, hT]
    rfl

/-- Witness for C9: the empty event list yields the idle marker. -/
theorem idle_emits_blk_witness :
    display_mini_timetable parseW [] 700 = some (str "TTB: BLK") :=
  (idle_emits_blk parseW [] 700).2 (by decide)

/-- Claim C10: for every input, the title compactor's output has no leading
whitespace, no trailing whitespace, and no two consecutive whitespace
characters, because the final step splits on whitespace and rejoins the
surviving tokens with single spaces. -/
theorem title_output_whitespace_normalized (s : Str) :
    noLeadWs (compress_title s) = true ∧ noTrailWs (compress_title s) = true ∧
    noConsecWs (compress_title s) = true :=
  unwords_normalized _ (fun w hw => (title_words_good _ w hw).1)

end Bstt
